import Mathlib

/-!
The package gosms: per-character code-point cost and string encodability.

A shallow embedding of `encoder.go` (package `gosms`): the GSM encoder, which
looks a rune up in the package-level map `gsmCodePoints`, and the UTF-16
encoder, which classifies a rune by the first unit `utf16.EncodeRune` gives.

Conventions of the embedding:

* a Go `rune` (an `int32`) is an `Int`; every statement quantified over all
  `Int` covers every `int32`;
* a Go `string` is its sequence of bytes, `List Nat` with every element below
  256; the conversion `[]rune(str)` is the UTF-8 decoding the Go language
  prescribes for it (an invalid byte yields U+FFFD and consumes one byte);
* a Go `error` is `Option GoError`, `none` being `nil`;
* a Go `map[rune]int` is an association list read by its first match;
* the map `gsmCodePoints` is declared in a file of the package other than
  `encoder.go`; the functions that read it take it as their first argument.
-/

set_option maxRecDepth 100000

namespace Gosms

/-! ## Go values -/

/-- A Go `rune`: an alias of `int32`. -/
abbrev rune := Int

/-- A Go `string`: a read-only sequence of bytes. -/
abbrev GoString := List Nat

/-- A Go error value made by `errors.New`, told apart by its message. -/
structure GoError where
  msg : String
deriving DecidableEq, Repr

/-- A Go `map[rune]int`, as the list of its key/value pairs. -/
abbrev RuneMap := List (rune × Int)

/-- The two-result map index expression `v, ok := m[k]`: an absent key gives
the zero value and `false`. -/
def RuneMap.index (m : RuneMap) (k : rune) : Int × Bool :=
  match m.lookup k with
  | some v => (v, true)
  | none => (0, false)

/-! ## The conversion `[]rune(str)` -/

/-- Bytes below `runeSelf` are single-byte runes. -/
def runeSelf : Nat := 0x80

/-- The rune U+FFFD that stands for an invalid encoding. -/
def runeError : Nat := 0xFFFD

/-- The largest Unicode code point. -/
def maxRune : Nat := 0x10FFFF

/-- Whether `b` is a UTF-8 continuation byte, `0x80 ≤ b ≤ 0xBF`. -/
def isCont (b : Nat) : Bool := 0x80 ≤ b && b ≤ 0xBF

/-- One step of UTF-8 decoding at the head of a byte sequence whose first
byte is not ASCII, after `decoderune` of the Go runtime: the rune decoded and
the number of bytes it takes.  A truncated, overlong, surrogate or
out-of-range sequence yields `runeError` and takes one byte. -/
def decoderune (s : GoString) : Nat × Nat :=
  let s0 := s.getD 0 0
  let s1 := s.getD 1 0
  let s2 := s.getD 2 0
  let s3 := s.getD 3 0
  if 0xC0 ≤ s0 ∧ s0 < 0xE0 then
    if s.length > 1 ∧ isCont s1 then
      let r := ((s0 &&& 0x1F) <<< 6) ||| (s1 &&& 0x3F)
      if 0x7F < r then (r, 2) else (runeError, 1)
    else (runeError, 1)
  else if 0xE0 ≤ s0 ∧ s0 < 0xF0 then
    if s.length > 2 ∧ isCont s1 ∧ isCont s2 then
      let r := ((s0 &&& 0x0F) <<< 12) ||| ((s1 &&& 0x3F) <<< 6) ||| (s2 &&& 0x3F)
      if 0x7FF < r ∧ ¬ (0xD800 ≤ r ∧ r ≤ 0xDFFF) then (r, 3) else (runeError, 1)
    else (runeError, 1)
  else if 0xF0 ≤ s0 ∧ s0 < 0xF8 then
    if s.length > 3 ∧ isCont s1 ∧ isCont s2 ∧ isCont s3 then
      let r := ((s0 &&& 0x07) <<< 18) ||| ((s1 &&& 0x3F) <<< 12) |||
        ((s2 &&& 0x3F) <<< 6) ||| (s3 &&& 0x3F)
      if 0xFFFF < r ∧ r ≤ maxRune then (r, 4) else (runeError, 1)
    else (runeError, 1)
  else (runeError, 1)

/-- The loop of `[]rune(str)`: at most `fuel` runes are read off `s`. -/
def stringToRunes.go : Nat → GoString → List rune
  | 0, _ => []
  | _, [] => []
  | fuel + 1, c :: rest =>
    if c < runeSelf then (c : Int) :: stringToRunes.go fuel rest
    else
      let d := decoderune (c :: rest)
      (d.1 : Int) :: stringToRunes.go fuel (rest.drop (d.2 - 1))

/-- The conversion `[]rune(str)`.  Every step takes at least one byte, so the
length of the string bounds the number of steps. -/
def stringToRunes (str : GoString) : List rune :=
  stringToRunes.go str.length str

/-- The loop of `isValidUTF8`: the loop of `[]rune(str)`, asking of every
step that it takes an ASCII byte or decodes a sequence of two to four
bytes. -/
def isValidUTF8.go : Nat → GoString → Bool
  | 0, _ => true
  | _, [] => true
  | fuel + 1, c :: rest =>
    if c < runeSelf then isValidUTF8.go fuel rest
    else
      let d := decoderune (c :: rest)
      decide (1 < d.2) && isValidUTF8.go fuel (rest.drop (d.2 - 1))

/-- Whether the bytes of `str` are valid UTF-8: the conversion `[]rune(str)`
meets no byte it has to replace by `runeError`. -/
def isValidUTF8 (str : GoString) : Bool :=
  isValidUTF8.go str.length str

/-! ## Package `unicode/utf16` -/

namespace utf16

def surr1 : Int := 0xd800
def surr2 : Int := 0xdc00
def surrSelf : Int := 0x10000
def maxRune : Int := 0x10FFFF
def replacementChar : Int := 0xFFFD

/-- The surrogate pair of a rune; `replacementChar` twice when the rune is
not a code point that needs a pair. -/
def EncodeRune (r : rune) : rune × rune :=
  if r < surrSelf ∨ r > maxRune then (replacementChar, replacementChar)
  else
    let r := r - surrSelf
    (surr1 + Int.land (r >>> 10) 0x3ff, surr2 + Int.land r 0x3ff)

end utf16

/-! ## `encoder.go` -/

/-- The error for a string or character the encoder cannot encode. -/
def ErrNotEncodable : GoError :=
  ⟨"one or more characters cannot be encoded with the given encoder"⟩

def EncoderNameGSM : String := "GSM"
def EncoderNameUTF16 : String := "UTF-16"
def codePointBitsGSM : Int := 7
def codePointBitsUTF16 : Int := 16
def highSurrogateStart : rune := 0xD800
def highSurrogateEnd : rune := 0xDBFF

/-- The GSM encoder: a struct without fields. -/
structure GSM where
deriving DecidableEq, Repr

/-- The UTF-16 encoder: a struct without fields. -/
structure UTF16 where
deriving DecidableEq, Repr

/-- The number of code points that represent `char` in GSM. -/
def GSM.GetCodePoints (gsmCodePoints : RuneMap) (_s : GSM) (char : rune) :
    Int × Option GoError :=
  let (codePoints, isGSM) := gsmCodePoints.index char
  if !isGSM then (0, some ErrNotEncodable)
  else (codePoints, none)

/-- The `for _, char := range runeSet` loop of `GSM.CheckEncodability`. -/
def GSM.CheckEncodability.loop (gsmCodePoints : RuneMap) (s : GSM) : List rune → Bool
  | [] => true
  | char :: runeSet =>
    let (_, err) := GSM.GetCodePoints gsmCodePoints s char
    if err ≠ none then false
    else GSM.CheckEncodability.loop gsmCodePoints s runeSet

/-- Whether `str` is encodable in GSM. -/
def GSM.CheckEncodability (gsmCodePoints : RuneMap) (s : GSM) (str : GoString) : Bool :=
  let runeSet := stringToRunes str
  GSM.CheckEncodability.loop gsmCodePoints s runeSet

/-- The number of code points that represent `char` in UTF-16. -/
def UTF16.GetCodePoints (_s : UTF16) (char : rune) : Int × Option GoError :=
  let (utf16Rune, _) := utf16.EncodeRune char
  if utf16Rune ≥ highSurrogateStart ∧ utf16Rune ≤ highSurrogateEnd then (2, none)
  else (1, none)

/-- Whether `str` is encodable in UTF-16: every Go string is. -/
def UTF16.CheckEncodability (_s : UTF16) (_str : GoString) : Bool :=
  true

/-- The bit width of one GSM code point. -/
def GSM.GetCodePointBits (_s : GSM) : Int := codePointBitsGSM

/-- The name of the GSM encoder. -/
def GSM.GetEncoderName (_s : GSM) : String := EncoderNameGSM

/-- The bit width of one UTF-16 code point. -/
def UTF16.GetCodePointBits (_s : UTF16) : Int := codePointBitsUTF16

/-- The name of the UTF-16 encoder. -/
def UTF16.GetEncoderName (_s : UTF16) : String := EncoderNameUTF16

/-- The interface `Encoder`, closed over the two types of the package that
implement it. -/
inductive Encoder where
  | gsm (s : GSM)
  | utf16 (s : UTF16)
deriving DecidableEq, Repr

def NewGSM : Encoder := .gsm {}

def NewUTF16 : Encoder := .utf16 {}

/-- Method `GetEncoderName` called through the interface. -/
def Encoder.GetEncoderName : Encoder → String
  | .gsm s => s.GetEncoderName
  | .utf16 s => s.GetEncoderName

/-- Method `GetCodePointBits` called through the interface. -/
def Encoder.GetCodePointBits : Encoder → Int
  | .gsm s => s.GetCodePointBits
  | .utf16 s => s.GetCodePointBits

/-- Method `GetCodePoints` called through the interface. -/
def Encoder.GetCodePoints (gsmCodePoints : RuneMap) : Encoder → rune → Int × Option GoError
  | .gsm s, char => GSM.GetCodePoints gsmCodePoints s char
  | .utf16 s, char => UTF16.GetCodePoints s char

/-- Method `CheckEncodability` called through the interface. -/
def Encoder.CheckEncodability (gsmCodePoints : RuneMap) : Encoder → GoString → Bool
  | .gsm s, str => GSM.CheckEncodability gsmCodePoints s str
  | .utf16 s, str => UTF16.CheckEncodability s str

/-! ## The methods as steps on the package state

The methods above are written as functions of what they read.  Below the
same bodies are written statement by statement as steps on the variables of
the package, so that what a call leaves behind is computed from the body and
not taken for granted. -/

/-- The variables of package `gosms` that `encoder.go` names: the error value
`ErrNotEncodable` and the map `gsmCodePoints`.  Both are Go variables: an
assignment or a map insertion would change them. -/
structure PkgState where
  ErrNotEncodable : GoError
  gsmCodePoints : RuneMap
deriving DecidableEq, Repr

/-- Reading the package variable `ErrNotEncodable`. -/
def loadErrNotEncodable : StateM PkgState GoError := do
  return (← get).ErrNotEncodable

/-- The index expression `gsmCodePoints[k]` with two results. -/
def indexGsmCodePoints (k : rune) : StateM PkgState (Int × Bool) := do
  return (← get).gsmCodePoints.index k

/-- The body of `(*GSM).GetCodePointBits`. -/
def GSM.GetCodePointBits.exec (_s : GSM) : StateM PkgState Int := do
  return codePointBitsGSM

/-- The body of `(*GSM).GetEncoderName`. -/
def GSM.GetEncoderName.exec (_s : GSM) : StateM PkgState String := do
  return EncoderNameGSM

/-- The body of `(*GSM).GetCodePoints`. -/
def GSM.GetCodePoints.exec (_s : GSM) (char : rune) : StateM PkgState (Int × Option GoError) := do
  let (codePoints, isGSM) ← indexGsmCodePoints char
  if !isGSM then
    return (0, some (← loadErrNotEncodable))
  return (codePoints, none)

/-- The `for _, char := range runeSet` loop of `(*GSM).CheckEncodability`. -/
def GSM.CheckEncodability.loopExec (s : GSM) : List rune → StateM PkgState Bool
  | [] => do
    return true
  | char :: runeSet => do
    let (_, err) ← GSM.GetCodePoints.exec s char
    if err ≠ none then
      return false
    GSM.CheckEncodability.loopExec s runeSet

/-- The body of `(*GSM).CheckEncodability`. -/
def GSM.CheckEncodability.exec (s : GSM) (str : GoString) : StateM PkgState Bool := do
  let runeSet := stringToRunes str
  GSM.CheckEncodability.loopExec s runeSet

/-- The body of `(*UTF16).GetCodePointBits`. -/
def UTF16.GetCodePointBits.exec (_s : UTF16) : StateM PkgState Int := do
  return codePointBitsUTF16

/-- The body of `(*UTF16).GetEncoderName`. -/
def UTF16.GetEncoderName.exec (_s : UTF16) : StateM PkgState String := do
  return EncoderNameUTF16

/-- The body of `(*UTF16).GetCodePoints`. -/
def UTF16.GetCodePoints.exec (_s : UTF16) (char : rune) :
    StateM PkgState (Int × Option GoError) := do
  let (utf16Rune, _) := utf16.EncodeRune char
  if utf16Rune ≥ highSurrogateStart ∧ utf16Rune ≤ highSurrogateEnd then
    return (2, none)
  return (1, none)

/-- The body of `(*UTF16).CheckEncodability`. -/
def UTF16.CheckEncodability.exec (_s : UTF16) (_str : GoString) : StateM PkgState Bool := do
  return true

/-- A call of a method of the interface `Encoder`, with its arguments. -/
inductive Call where
  | GetEncoderName
  | GetCodePointBits
  | GetCodePoints (char : rune)
  | CheckEncodability (str : GoString)
deriving DecidableEq, Repr

/-- What a call of a method of the interface `Encoder` returns. -/
inductive Value where
  | name (s : String)
  | bits (n : Int)
  | cost (codePoints : Int) (err : Option GoError)
  | encodable (b : Bool)
deriving DecidableEq, Repr

/-- Method `GetCodePoints` called through the interface, as a step. -/
def Encoder.GetCodePoints.exec : Encoder → rune → StateM PkgState (Int × Option GoError)
  | .gsm s, char => GSM.GetCodePoints.exec s char
  | .utf16 s, char => UTF16.GetCodePoints.exec s char

/-- A call of any method of the interface on the encoder `e`, as a step. -/
def Encoder.invoke (e : Encoder) : Call → StateM PkgState Value
  | .GetEncoderName =>
    match e with
    | .gsm s => do
      return .name (← GSM.GetEncoderName.exec s)
    | .utf16 s => do
      return .name (← UTF16.GetEncoderName.exec s)
  | .GetCodePointBits =>
    match e with
    | .gsm s => do
      return .bits (← GSM.GetCodePointBits.exec s)
    | .utf16 s => do
      return .bits (← UTF16.GetCodePointBits.exec s)
  | .GetCodePoints char => do
    let r ← Encoder.GetCodePoints.exec e char
    return .cost r.1 r.2
  | .CheckEncodability str =>
    match e with
    | .gsm s => do
      return .encodable (← GSM.CheckEncodability.exec s str)
    | .utf16 s => do
      return .encodable (← UTF16.CheckEncodability.exec s str)

/-- A sequence of calls, each on an encoder of its own, one after the other. -/
def runCalls : List (Encoder × Call) → StateM PkgState (List Value)
  | [] => do
    return []
  | (e, call) :: rest => do
    let v ← e.invoke call
    let vs ← runCalls rest
    return v :: vs

/-- A step that leaves every package variable as it found it. -/
def ReadOnly {α : Type} (m : StateM PkgState α) : Prop :=
  ∀ σ : PkgState, (m.run σ).2 = σ

/-! ## The code-point table

`encoder.go` reads the map `gsmCodePoints` and does not declare it.  The
statements about what the map holds are made against the table below. -/

/-- Modelled from the spec: the keys of cost 1 of the map `gsmCodePoints`
(declared outside `encoder.go`), the GSM 03.38 default alphabet: digits, Latin
letters with their accented forms, punctuation, currency signs, the ten Greek
capitals, line feed and carriage return.  Listed in the order of the septets
0x00 to 0x7F of the standard, the escape septet 0x1B left out. -/
def gsmBaseAlphabet : List rune :=
  [ -- 0x00: commercial at, pound, dollar, yen, e grave, e acute, u grave, i grave
    0x40, 0xA3, 0x24, 0xA5, 0xE8, 0xE9, 0xF9, 0xEC,
    -- 0x08: o grave, C cedilla, line feed, O stroke, o stroke, carriage return, A ring, a ring
    0xF2, 0xC7, 0x0A, 0xD8, 0xF8, 0x0D, 0xC5, 0xE5,
    -- 0x10: Delta, low line, Phi, Gamma, Lambda, Omega, Pi, Psi
    0x394, 0x5F, 0x3A6, 0x393, 0x39B, 0x3A9, 0x3A0, 0x3A8,
    -- 0x18: Sigma, Theta, Xi, (escape), AE, ae, sharp s, E acute
    0x3A3, 0x398, 0x39E, 0xC6, 0xE6, 0xDF, 0xC9,
    -- 0x20: space, exclamation mark, quotation mark, number sign, currency sign,
    -- percent, ampersand, quote
    0x20, 0x21, 0x22, 0x23, 0xA4, 0x25, 0x26, 0x27,
    -- 0x28: parentheses, asterisk, plus, comma, hyphen, full stop, solidus
    0x28, 0x29, 0x2A, 0x2B, 0x2C, 0x2D, 0x2E, 0x2F,
    -- 0x30: digits 0 to 9, colon, semicolon, less, equals, greater, question mark
    0x30, 0x31, 0x32, 0x33, 0x34, 0x35, 0x36, 0x37,
    0x38, 0x39, 0x3A, 0x3B, 0x3C, 0x3D, 0x3E, 0x3F,
    -- 0x40: inverted exclamation mark, letters A to O
    0xA1, 0x41, 0x42, 0x43, 0x44, 0x45, 0x46, 0x47,
    0x48, 0x49, 0x4A, 0x4B, 0x4C, 0x4D, 0x4E, 0x4F,
    -- 0x50: letters P to Z, A diaeresis, O diaeresis, N tilde, U diaeresis, section
    0x50, 0x51, 0x52, 0x53, 0x54, 0x55, 0x56, 0x57,
    0x58, 0x59, 0x5A, 0xC4, 0xD6, 0xD1, 0xDC, 0xA7,
    -- 0x60: inverted question mark, letters a to o
    0xBF, 0x61, 0x62, 0x63, 0x64, 0x65, 0x66, 0x67,
    0x68, 0x69, 0x6A, 0x6B, 0x6C, 0x6D, 0x6E, 0x6F,
    -- 0x70: letters p to z, a diaeresis, o diaeresis, n tilde, u diaeresis, a grave
    0x70, 0x71, 0x72, 0x73, 0x74, 0x75, 0x76, 0x77,
    0x78, 0x79, 0x7A, 0xE4, 0xF6, 0xF1, 0xFC, 0xE0 ]

/-- Modelled from the spec: the keys of cost 2 of the map `gsmCodePoints`
(declared outside `encoder.go`), the extension characters the spec lists:
circumflex, left and right curly bracket, reverse solidus, left square
bracket, tilde, right square bracket, vertical line and the euro sign. -/
def gsmExtensionTable : List rune :=
  [0x5E, 0x7B, 0x7D, 0x5C, 0x5B, 0x7E, 0x5D, 0x7C, 0x20AC]

/-- Modelled from the spec: the map `gsmCodePoints` (declared outside
`encoder.go`), a fixed mapping from the supported characters to their cost: 1
for a character of the default alphabet, 2 for an extension character. -/
def gsmCodePoints : RuneMap :=
  gsmBaseAlphabet.map (fun c => (c, 1)) ++ gsmExtensionTable.map (fun c => (c, 2))

/-- A Unicode scalar value: a code point up to U+10FFFF that is not a
surrogate.  This is what the spec calls a character. -/
def isScalarValue (c : Int) : Prop :=
  (0 ≤ c ∧ c < 0xD800) ∨ (0xDFFF < c ∧ c ≤ 0x10FFFF)

instance (c : Int) : Decidable (isScalarValue c) := by
  unfold isScalarValue
  infer_instance

/-! ## The conversion reads the whole string -/

/-- The loop of the conversion gives the same runes for any two amounts of
fuel that reach the length of the string: the length is fuel enough. -/
theorem stringToRunes.go_fuel (fuel1 : Nat) :
    ∀ (fuel2 : Nat) (s : GoString), s.length ≤ fuel1 → s.length ≤ fuel2 →
      stringToRunes.go fuel1 s = stringToRunes.go fuel2 s := by
  induction fuel1 with
  | zero =>
    intro fuel2 s h1 _
    have hs : s = [] := List.length_eq_zero.mp (Nat.le_zero.mp h1)
    subst hs
    cases fuel2 <;> rfl
  | succ n ih =>
    intro fuel2 s h1 h2
    cases s with
    | nil => cases fuel2 <;> rfl
    | cons c rest =>
      cases fuel2 with
      | zero => simp at h2
      | succ m =>
        simp only [List.length_cons, Nat.add_le_add_iff_right] at h1 h2
        simp only [stringToRunes.go]
        split
        · rw [ih m rest h1 h2]
        · have hd : (rest.drop ((decoderune (c :: rest)).2 - 1)).length ≤ rest.length := by
            rw [List.length_drop]
            exact Nat.sub_le _ _
          rw [ih m _ (Nat.le_trans hd h1) (Nat.le_trans hd h2)]

/-- More fuel than the length of the string changes nothing. -/
theorem stringToRunes_eq_go (fuel : Nat) (str : GoString) (h : str.length ≤ fuel) :
    stringToRunes str = stringToRunes.go fuel str :=
  stringToRunes.go_fuel str.length fuel str (Nat.le_refl _) h

/-! ## The conversion of a concatenation -/

/-- A sequence `decoderune` decodes as more than one byte lies within the
string. -/
theorem decoderune_snd_le (s : GoString) (h : 1 < (decoderune s).2) :
    (decoderune s).2 ≤ s.length := by
  unfold decoderune at h ⊢
  simp only at h ⊢
  split_ifs at h ⊢ <;> simp_all <;> omega

/-- A sequence `decoderune` decodes as more than one byte is decoded the same
in every string that starts with the bytes of the first. -/
theorem decoderune_congr (s u : GoString) (h : 1 < (decoderune s).2)
    (hl : s.length ≤ u.length) (hg : ∀ i, i < s.length → u.getD i 0 = s.getD i 0) :
    decoderune u = decoderune s := by
  have hlen := decoderune_snd_le s h
  have e0 : u.getD 0 0 = s.getD 0 0 := hg 0 (by omega)
  by_cases c2 : 0xC0 ≤ s.getD 0 0 ∧ s.getD 0 0 < 0xE0
  · simp only [decoderune, e0, if_pos c2] at h ⊢
    by_cases k : s.length > 1 ∧ isCont (s.getD 1 0) = true
    · have e1 : u.getD 1 0 = s.getD 1 0 := hg 1 k.1
      have k2 : u.length > 1 ∧ isCont (s.getD 1 0) = true := ⟨by omega, k.2⟩
      simp only [e1, if_pos k, if_pos k2]
    · simp only [if_neg k] at h
      omega
  · by_cases c3 : 0xE0 ≤ s.getD 0 0 ∧ s.getD 0 0 < 0xF0
    · simp only [decoderune, e0, if_neg c2, if_pos c3] at h ⊢
      by_cases k : s.length > 2 ∧ isCont (s.getD 1 0) = true ∧ isCont (s.getD 2 0) = true
      · have e1 : u.getD 1 0 = s.getD 1 0 := hg 1 (by omega)
        have e2 : u.getD 2 0 = s.getD 2 0 := hg 2 k.1
        have k2 : u.length > 2 ∧ isCont (s.getD 1 0) = true ∧ isCont (s.getD 2 0) = true :=
          ⟨by omega, k.2⟩
        simp only [e1, e2, if_pos k, if_pos k2]
      · simp only [if_neg k] at h
        omega
    · by_cases c4 : 0xF0 ≤ s.getD 0 0 ∧ s.getD 0 0 < 0xF8
      · simp only [decoderune, e0, if_neg c2, if_neg c3, if_pos c4] at h ⊢
        by_cases k : s.length > 3 ∧ isCont (s.getD 1 0) = true ∧ isCont (s.getD 2 0) = true ∧
            isCont (s.getD 3 0) = true
        · have e1 : u.getD 1 0 = s.getD 1 0 := hg 1 (by omega)
          have e2 : u.getD 2 0 = s.getD 2 0 := hg 2 (by omega)
          have e3 : u.getD 3 0 = s.getD 3 0 := hg 3 k.1
          have k2 : u.length > 3 ∧ isCont (s.getD 1 0) = true ∧ isCont (s.getD 2 0) = true ∧
              isCont (s.getD 3 0) = true := ⟨by omega, k.2⟩
          simp only [e1, e2, e3, if_pos k, if_pos k2]
        · simp only [if_neg k] at h
          omega
      · simp only [decoderune, if_neg c2, if_neg c3, if_neg c4] at h
        omega

/-- The loop of the conversion, run over a valid string followed by any
bytes, gives the runes of the valid string and then the runes of the rest. -/
theorem stringToRunes.go_append (n : Nat) :
    ∀ (s t : GoString), s.length ≤ n → isValidUTF8.go n s = true →
      stringToRunes.go (n + t.length) (s ++ t) =
        stringToRunes.go n s ++ stringToRunes.go t.length t := by
  induction n with
  | zero =>
    intro s t hs _
    have hnil : s = [] := List.length_eq_zero.mp (Nat.le_zero.mp hs)
    subst hnil
    simp [stringToRunes.go]
  | succ n ih =>
    intro s t hs hv
    cases s with
    | nil =>
      simp only [List.nil_append, stringToRunes.go]
      exact stringToRunes.go_fuel (n + 1 + t.length) t.length t (by omega) (Nat.le_refl _)
    | cons c rest =>
      have hfuel : n + 1 + t.length = (n + t.length) + 1 := by omega
      simp only [List.length_cons, Nat.add_le_add_iff_right] at hs
      rw [hfuel]
      simp only [List.cons_append, stringToRunes.go, List.append_eq]
      unfold isValidUTF8.go at hv
      by_cases hc : c < runeSelf
      · simp only [if_pos hc] at hv ⊢
        rw [ih rest t hs hv]
        rfl
      · simp only [if_neg hc, Bool.and_eq_true, decide_eq_true_eq] at hv ⊢
        obtain ⟨h1, h2⟩ := hv
        have hle := decoderune_snd_le (c :: rest) h1
        simp only [List.length_cons] at hle
        have hd : decoderune (c :: (rest ++ t)) = decoderune (c :: rest) := by
          apply decoderune_congr (c :: rest) (c :: (rest ++ t)) h1
          · simp
          · intro i hi
            rw [← List.cons_append]
            exact List.getD_append (c :: rest) t 0 i hi
        rw [hd, List.drop_append_of_le_length (by omega)]
        have hdrop : (rest.drop ((decoderune (c :: rest)).2 - 1)).length ≤ n := by
          rw [List.length_drop]
          omega
        rw [ih _ t hdrop h2]
        rfl

/-- The runes of a valid string followed by any bytes are the runes of the
valid string and then the runes of the rest. -/
theorem stringToRunes_append (s t : GoString) (h : isValidUTF8 s = true) :
    stringToRunes (s ++ t) = stringToRunes s ++ stringToRunes t := by
  unfold stringToRunes
  rw [List.length_append]
  exact stringToRunes.go_append s.length s t (Nat.le_refl _) h

/-! ## Reading a map -/

theorem RuneMap.lookup_eq_none_iff_not_key (m : RuneMap) (k : rune) :
    m.lookup k = none ↔ k ∉ m.map Prod.fst := by
  induction m with
  | nil => simp
  | cons p m ih =>
    obtain ⟨a, b⟩ := p
    by_cases h : k = a
    · subst h
      simp
    · have hb : (k == a) = false := by simpa using h
      simp only [List.lookup_cons, hb, List.map_cons, List.mem_cons, h, false_or]
      exact ih

theorem RuneMap.mem_of_lookup_eq_some (m : RuneMap) (k : rune) (v : Int)
    (h : m.lookup k = some v) : (k, v) ∈ m := by
  induction m with
  | nil => simp at h
  | cons p m ih =>
    obtain ⟨a, b⟩ := p
    by_cases hk : k = a
    · subst hk
      simp only [List.lookup_cons_self, Option.some.injEq] at h
      subst h
      exact List.mem_cons_self _ _
    · have hb : (k == a) = false := by simpa using hk
      simp only [List.lookup_cons, hb] at h
      exact List.mem_cons_of_mem _ (ih h)

theorem RuneMap.lookup_eq_some_of_mem (m : RuneMap) (k : rune) (v : Int)
    (hm : (m.map Prod.fst).Nodup) (h : (k, v) ∈ m) : m.lookup k = some v := by
  induction m with
  | nil => simp at h
  | cons p m ih =>
    obtain ⟨a, b⟩ := p
    simp only [List.map_cons, List.nodup_cons] at hm
    rcases List.mem_cons.mp h with heq | hin
    · injection heq with h1 h2
      subst h1
      subst h2
      simp
    · have hk : k ≠ a := by
        rintro rfl
        exact hm.1 (List.mem_map_of_mem Prod.fst hin)
      have hb : (k == a) = false := by simpa using hk
      simp only [List.lookup_cons, hb]
      exact ih hm.2 hin

/-! ## The GSM encoder -/

/-- The result of `GSM.GetCodePoints` by the outcome of the map read. -/
theorem GSM.GetCodePoints_eq (tbl : RuneMap) (s : GSM) (c : rune) :
    GSM.GetCodePoints tbl s c =
      match tbl.lookup c with
      | some v => (v, none)
      | none => (0, some ErrNotEncodable) := by
  unfold GSM.GetCodePoints RuneMap.index
  cases tbl.lookup c <;> rfl

theorem GSM.GetCodePoints_of_lookup_some (tbl : RuneMap) (s : GSM) (c : rune) (v : Int)
    (h : tbl.lookup c = some v) : GSM.GetCodePoints tbl s c = (v, none) := by
  rw [GSM.GetCodePoints_eq, h]

theorem GSM.GetCodePoints_of_lookup_none (tbl : RuneMap) (s : GSM) (c : rune)
    (h : tbl.lookup c = none) : GSM.GetCodePoints tbl s c = (0, some ErrNotEncodable) := by
  rw [GSM.GetCodePoints_eq, h]

/-- The error of `GSM.GetCodePoints` is `nil` exactly when the map read finds
the rune. -/
theorem GSM.GetCodePoints_err_none_iff (tbl : RuneMap) (s : GSM) (c : rune) :
    (GSM.GetCodePoints tbl s c).2 = none ↔ c ∈ tbl.map Prod.fst := by
  rw [GSM.GetCodePoints_eq]
  cases h : tbl.lookup c with
  | none =>
    have := (RuneMap.lookup_eq_none_iff_not_key tbl c).mp h
    simp [this]
  | some v =>
    have hin := RuneMap.mem_of_lookup_eq_some tbl c v h
    have : c ∈ tbl.map Prod.fst := List.mem_map_of_mem Prod.fst hin
    simp [this]

/-- The loop of `GSM.CheckEncodability` answers `true` exactly when no rune
of the slice makes `GSM.GetCodePoints` fail. -/
theorem GSM.CheckEncodability.loop_eq_true_iff (tbl : RuneMap) (s : GSM) (runeSet : List rune) :
    GSM.CheckEncodability.loop tbl s runeSet = true ↔
      ∀ c ∈ runeSet, (GSM.GetCodePoints tbl s c).2 = none := by
  induction runeSet with
  | nil => simp [GSM.CheckEncodability.loop]
  | cons c rest ih =>
    simp only [GSM.CheckEncodability.loop, List.mem_cons, forall_eq_or_imp]
    by_cases h : (GSM.GetCodePoints tbl s c).2 = none
    · simp [h, ih]
    · simp [h]

/-! ## Claims about the GSM encoder -/

/-- C1: for every string, `GSM.CheckEncodability` returns true if and only if
`GSM.GetCodePoints` succeeds (nil error) on every rune of the string, the
runes being what `[]rune(str)` decodes from its bytes.  With the code-point
table of the spec, the bytes of "HELLO" give true, and the bytes of "HELLO "
followed by U+597D (three bytes, one rune) give false. -/
theorem GSM.CheckEncodability_iff_every_rune_encodable :
    (∀ (tbl : RuneMap) (s : GSM) (str : GoString),
      GSM.CheckEncodability tbl s str = true ↔
        ∀ c ∈ stringToRunes str, (GSM.GetCodePoints tbl s c).2 = none) ∧
    GSM.CheckEncodability gsmCodePoints {} [0x48, 0x45, 0x4C, 0x4C, 0x4F] = true ∧
    stringToRunes [0x48, 0x45, 0x4C, 0x4C, 0x4F, 0x20, 0xE5, 0xA5, 0xBD] =
      [0x48, 0x45, 0x4C, 0x4C, 0x4F, 0x20, 0x597D] ∧
    GSM.CheckEncodability gsmCodePoints {}
      [0x48, 0x45, 0x4C, 0x4C, 0x4F, 0x20, 0xE5, 0xA5, 0xBD] = false := by
  refine ⟨?_, by decide, by decide, by decide⟩
  intro tbl s str
  unfold GSM.CheckEncodability
  exact GSM.CheckEncodability.loop_eq_true_iff tbl s (stringToRunes str)

/-- C2: for every rune, `GSM.GetCodePoints` fails with `ErrNotEncodable` if
and only if the rune is not a key of the code-point table; a failure comes
with the count 0; the error is never anything but nil or `ErrNotEncodable`.
U+597D and U+1F600 are not keys of the code-point table of the spec and fail
with `ErrNotEncodable`. -/
theorem GSM.GetCodePoints_fails_iff_not_key :
    (∀ (tbl : RuneMap) (s : GSM) (c : rune),
      ((GSM.GetCodePoints tbl s c).2 = some ErrNotEncodable ↔ c ∉ tbl.map Prod.fst) ∧
      ((GSM.GetCodePoints tbl s c).2 ≠ none → (GSM.GetCodePoints tbl s c).1 = 0) ∧
      ((GSM.GetCodePoints tbl s c).2 = none ∨
        (GSM.GetCodePoints tbl s c).2 = some ErrNotEncodable)) ∧
    (0x597D ∉ gsmCodePoints.map Prod.fst ∧
      GSM.GetCodePoints gsmCodePoints {} 0x597D = (0, some ErrNotEncodable)) ∧
    (0x1F600 ∉ gsmCodePoints.map Prod.fst ∧
      GSM.GetCodePoints gsmCodePoints {} 0x1F600 = (0, some ErrNotEncodable)) := by
  refine ⟨?_, ⟨by decide, by decide⟩, ⟨by decide, by decide⟩⟩
  intro tbl s c
  rw [GSM.GetCodePoints_eq]
  cases h : tbl.lookup c with
  | none =>
    have hk := (RuneMap.lookup_eq_none_iff_not_key tbl c).mp h
    simp [hk]
  | some v =>
    have hk : c ∈ tbl.map Prod.fst :=
      List.mem_map_of_mem Prod.fst (RuneMap.mem_of_lookup_eq_some tbl c v h)
    simp [hk]

/-- Witness of C2: in a table whose only key is U+0041, the rune U+0042 is not
a key, fails with `ErrNotEncodable`, and the count returned is 0. -/
theorem GSM.GetCodePoints_fails_iff_not_key_witness :
    (0x42 : rune) ∉ ([(0x41, 1)] : RuneMap).map Prod.fst ∧
    (GSM.GetCodePoints [(0x41, 1)] {} 0x42).2 = some ErrNotEncodable ∧
    (GSM.GetCodePoints [(0x41, 1)] {} 0x42).1 = 0 :=
  ⟨by decide,
    ((GSM.GetCodePoints_fails_iff_not_key.1 [(0x41, 1)] {} 0x42).1).mpr (by decide),
    (GSM.GetCodePoints_fails_iff_not_key.1 [(0x41, 1)] {} 0x42).2.1 (by decide)⟩

/-- C3: for every rune that is a key of the code-point table, a map with one
value per key, `GSM.GetCodePoints` returns the cost the table stores for the
rune, and a nil error. -/
theorem GSM.GetCodePoints_key_returns_stored_cost (tbl : RuneMap) (s : GSM) (c : rune)
    (v : Int) (hkeys : (tbl.map Prod.fst).Nodup) (hstored : (c, v) ∈ tbl) :
    GSM.GetCodePoints tbl s c = (v, none) :=
  GSM.GetCodePoints_of_lookup_some tbl s c v (RuneMap.lookup_eq_some_of_mem tbl c v hkeys hstored)

/-- Witness of C3: the code-point table of the spec has one value per key and
stores 2 for U+20AC, and `GSM.GetCodePoints` returns 2 and nil for it. -/
theorem GSM.GetCodePoints_key_returns_stored_cost_witness :
    (gsmCodePoints.map Prod.fst).Nodup ∧ ((0x20AC : rune), (2 : Int)) ∈ gsmCodePoints ∧
    GSM.GetCodePoints gsmCodePoints {} 0x20AC = (2, none) :=
  ⟨by decide, by decide,
    GSM.GetCodePoints_key_returns_stored_cost gsmCodePoints {} 0x20AC 2 (by decide) (by decide)⟩

/-! ## The UTF-16 encoder -/

/-- A rune that needs no surrogate pair, or is no code point at all, is
encoded as the replacement character. -/
theorem utf16.EncodeRune_of_not_pair (r : Int) (h : r < 0x10000 ∨ 0x10FFFF < r) :
    utf16.EncodeRune r = (0xFFFD, 0xFFFD) := by
  unfold utf16.EncodeRune utf16.surrSelf utf16.maxRune utf16.replacementChar
  rw [if_pos (show r < (0x10000 : Int) ∨ r > (0x10FFFF : Int) by omega)]

/-- The first unit of the pair of a supplementary code point is a high
surrogate. -/
theorem utf16.EncodeRune_fst_high (r : Int) (h1 : 0x10000 ≤ r) (h2 : r ≤ 0x10FFFF) :
    (0xD800 : Int) ≤ (utf16.EncodeRune r).1 ∧ (utf16.EncodeRune r).1 ≤ (0xDBFF : Int) := by
  unfold utf16.EncodeRune utf16.surrSelf utf16.maxRune utf16.surr1
  rw [if_neg (show ¬ (r < (0x10000 : Int) ∨ r > (0x10FFFF : Int)) by omega)]
  obtain ⟨n, hn⟩ := Int.eq_ofNat_of_zero_le (show 0 ≤ r - 0x10000 by omega)
  have hland : Int.land ((n : Int) >>> 10) 0x3ff = (((n >>> 10) &&& 0x3ff : Nat) : Int) := rfl
  have hle : (n >>> 10) &&& 0x3ff ≤ 0x3ff := Nat.and_le_right
  show (0xD800 : Int) ≤ 0xd800 + Int.land ((r - 0x10000) >>> 10) 0x3ff ∧
    0xd800 + Int.land ((r - 0x10000) >>> 10) 0x3ff ≤ (0xDBFF : Int)
  rw [hn, hland]
  omega

/-- The result of `UTF16.GetCodePoints` for a rune `utf16.EncodeRune` gives a
pair for. -/
theorem UTF16.GetCodePoints_of_pair (s : UTF16) (c : Int) (h1 : 0x10000 ≤ c)
    (h2 : c ≤ 0x10FFFF) : UTF16.GetCodePoints s c = (2, none) := by
  have h := utf16.EncodeRune_fst_high c h1 h2
  unfold UTF16.GetCodePoints highSurrogateStart highSurrogateEnd
  simp only [ge_iff_le]
  rw [if_pos h]

/-- The result of `UTF16.GetCodePoints` for a rune `utf16.EncodeRune` gives no
pair for. -/
theorem UTF16.GetCodePoints_of_not_pair (s : UTF16) (c : Int)
    (h : c < 0x10000 ∨ 0x10FFFF < c) : UTF16.GetCodePoints s c = (1, none) := by
  unfold UTF16.GetCodePoints highSurrogateStart highSurrogateEnd
  rw [utf16.EncodeRune_of_not_pair c h]
  simp

/-- `UTF16.GetCodePoints` has two results. -/
theorem UTF16.GetCodePoints_cases (s : UTF16) (c : Int) :
    UTF16.GetCodePoints s c = (1, none) ∨ UTF16.GetCodePoints s c = (2, none) := by
  by_cases h : c < (0x10000 : Int) ∨ (0x10FFFF : Int) < c
  · exact Or.inl (UTF16.GetCodePoints_of_not_pair s c h)
  · exact Or.inr (UTF16.GetCodePoints_of_pair s c (by omega) (by omega))

/-- C4: for every character (a Unicode scalar value) above U+FFFF,
`UTF16.GetCodePoints` returns 2 and a nil error. -/
theorem UTF16.GetCodePoints_supplementary (s : UTF16) (c : Int) (hc : isScalarValue c)
    (hgt : (0xFFFF : Int) < c) : UTF16.GetCodePoints s c = (2, none) := by
  unfold isScalarValue at hc
  exact UTF16.GetCodePoints_of_pair s c (by omega) (by omega)

/-- Witness of C4: U+1F600 is a scalar value above U+FFFF and costs 2. -/
theorem UTF16.GetCodePoints_supplementary_witness :
    isScalarValue 0x1F600 ∧ (0xFFFF : Int) < 0x1F600 ∧
    UTF16.GetCodePoints {} 0x1F600 = (2, none) :=
  ⟨by decide, by decide, UTF16.GetCodePoints_supplementary {} 0x1F600 (by decide) (by decide)⟩

/-- C5: for every character (a Unicode scalar value, hence no surrogate) at
most U+FFFF, `UTF16.GetCodePoints` returns 1 and a nil error. -/
theorem UTF16.GetCodePoints_basic_plane (s : UTF16) (c : Int) (hle : c ≤ (0xFFFF : Int))
    (_hns : ¬ ((0xD800 : Int) ≤ c ∧ c ≤ (0xDFFF : Int))) : UTF16.GetCodePoints s c = (1, none) :=
  UTF16.GetCodePoints_of_not_pair s c (by omega)

/-- Witness of C5: U+20AC is at most U+FFFF, is no surrogate, and costs 1. -/
theorem UTF16.GetCodePoints_basic_plane_witness :
    (0x20AC : Int) ≤ 0xFFFF ∧ ¬ ((0xD800 : Int) ≤ 0x20AC ∧ (0x20AC : Int) ≤ 0xDFFF) ∧
    UTF16.GetCodePoints {} 0x20AC = (1, none) :=
  ⟨by decide, by decide, UTF16.GetCodePoints_basic_plane {} 0x20AC (by decide) (by decide)⟩

/-- C6: `UTF16.GetCodePoints` never fails: the error is nil for every rune. -/
theorem UTF16.GetCodePoints_err_nil (s : UTF16) (c : Int) :
    (UTF16.GetCodePoints s c).2 = none := by
  rcases UTF16.GetCodePoints_cases s c with h | h <;> rw [h]

/-- C7: `UTF16.CheckEncodability` returns true for every string: the empty
one, and one with a character outside the Basic Multilingual Plane, such as
the four bytes of U+1F600. -/
theorem UTF16.CheckEncodability_true :
    (∀ (s : UTF16) (str : GoString), UTF16.CheckEncodability s str = true) ∧
    UTF16.CheckEncodability {} [] = true ∧
    stringToRunes [0xF0, 0x9F, 0x98, 0x80] = [0x1F600] ∧
    UTF16.CheckEncodability {} [0xF0, 0x9F, 0x98, 0x80] = true :=
  ⟨fun _ _ => rfl, rfl, by decide, rfl⟩

/-! ## The costs of the code-point table

The statements below are about what the map `gsmCodePoints` holds, and are
made against the table modelled from the spec. -/

/-- Every value of the code-point table is 1 or 2. -/
theorem gsmCodePoints_values : ∀ p ∈ gsmCodePoints, p.2 = 1 ∨ p.2 = 2 := by
  decide

/-- No rune is a key of the code-point table twice. -/
theorem gsmCodePoints_keys_nodup : (gsmCodePoints.map Prod.fst).Nodup := by
  decide

/-- Every character of the default alphabet reads 1 off the table. -/
theorem gsmCodePoints_lookup_base : ∀ c ∈ gsmBaseAlphabet, gsmCodePoints.lookup c = some 1 := by
  decide

/-- The digits, the capital letters and the space are in the default
alphabet. -/
theorem mem_gsmBaseAlphabet_of_digit_upper_space (c : Int)
    (h : ((0x30 : Int) ≤ c ∧ c ≤ (0x39 : Int)) ∨ ((0x41 : Int) ≤ c ∧ c ≤ (0x5A : Int)) ∨
      c = (0x20 : Int)) : c ∈ gsmBaseAlphabet := by
  rcases h with ⟨h1, h2⟩ | ⟨h1, h2⟩ | h
  · interval_cases c <;> decide
  · interval_cases c <;> decide
  · subst h
    decide

/-- For a map with one value per key, the costs `GSM.GetCodePoints` returns
are all 1 or 2 exactly when the values of the map are. -/
theorem GSM.GetCodePoints_cost_range_iff (tbl : RuneMap) (s : GSM)
    (hkeys : (tbl.map Prod.fst).Nodup) :
    (∀ c : rune, (GSM.GetCodePoints tbl s c).2 = none →
        (GSM.GetCodePoints tbl s c).1 = 1 ∨ (GSM.GetCodePoints tbl s c).1 = 2) ↔
      ∀ p ∈ tbl, p.2 = 1 ∨ p.2 = 2 := by
  constructor
  · rintro h ⟨k, v⟩ hp
    have hg := GSM.GetCodePoints_of_lookup_some tbl s k v
      (RuneMap.lookup_eq_some_of_mem tbl k v hkeys hp)
    have := h k (by rw [hg])
    rw [hg] at this
    exact this
  · intro h c _
    rw [GSM.GetCodePoints_eq]
    cases hl : tbl.lookup c with
    | none => simp_all [GSM.GetCodePoints_eq]
    | some v => exact h (c, v) (RuneMap.mem_of_lookup_eq_some tbl c v hl)

/-- C8: for either encoder and every rune, a cost `GetCodePoints` returns with
a nil error is 1 or 2; for GSM, read off the code-point table of the spec,
this is that every value of the table is 1 or 2. -/
theorem Encoder.GetCodePoints_cost_one_or_two :
    (∀ (e : Encoder) (c : rune), (Encoder.GetCodePoints gsmCodePoints e c).2 = none →
      (Encoder.GetCodePoints gsmCodePoints e c).1 = 1 ∨
        (Encoder.GetCodePoints gsmCodePoints e c).1 = 2) ∧
    (∀ p ∈ gsmCodePoints, p.2 = 1 ∨ p.2 = 2) := by
  refine ⟨?_, gsmCodePoints_values⟩
  intro e c h
  cases e with
  | gsm s =>
    exact (GSM.GetCodePoints_cost_range_iff gsmCodePoints s gsmCodePoints_keys_nodup).mpr
      gsmCodePoints_values c h
  | utf16 s =>
    show (UTF16.GetCodePoints s c).1 = 1 ∨ (UTF16.GetCodePoints s c).1 = 2
    rcases UTF16.GetCodePoints_cases s c with hp | hp
    · rw [hp]
      exact Or.inl rfl
    · rw [hp]
      exact Or.inr rfl

/-- Witness of C8: through the GSM encoder U+007B succeeds with cost 2, and
through the UTF-16 encoder U+0041 succeeds with cost 1. -/
theorem Encoder.GetCodePoints_cost_one_or_two_witness :
    ((Encoder.GetCodePoints gsmCodePoints NewGSM 0x7B).2 = none ∧
      ((Encoder.GetCodePoints gsmCodePoints NewGSM 0x7B).1 = 1 ∨
        (Encoder.GetCodePoints gsmCodePoints NewGSM 0x7B).1 = 2)) ∧
    ((Encoder.GetCodePoints gsmCodePoints NewUTF16 0x41).2 = none ∧
      ((Encoder.GetCodePoints gsmCodePoints NewUTF16 0x41).1 = 1 ∨
        (Encoder.GetCodePoints gsmCodePoints NewUTF16 0x41).1 = 2)) :=
  ⟨⟨by decide, Encoder.GetCodePoints_cost_one_or_two.1 NewGSM 0x7B (by decide)⟩,
    ⟨by decide, Encoder.GetCodePoints_cost_one_or_two.1 NewUTF16 0x41 (by decide)⟩⟩

/-- C9: for each of the nine extension characters (circumflex, the curly
brackets, reverse solidus, the square brackets, tilde, vertical line and the
euro sign), `GSM.GetCodePoints` on the code-point table of the spec returns 2
and a nil error. -/
theorem GSM.GetCodePoints_extension (s : GSM) (c : rune)
    (hc : c ∈ ([0x5E, 0x7B, 0x7D, 0x5C, 0x5B, 0x7E, 0x5D, 0x7C, 0x20AC] : List rune)) :
    GSM.GetCodePoints gsmCodePoints s c = (2, none) := by
  cases s
  revert c
  decide

/-- Witness of C9: the euro sign, U+20AC. -/
theorem GSM.GetCodePoints_extension_witness :
    (0x20AC : rune) ∈ ([0x5E, 0x7B, 0x7D, 0x5C, 0x5B, 0x7E, 0x5D, 0x7C, 0x20AC] : List rune) ∧
    GSM.GetCodePoints gsmCodePoints {} 0x20AC = (2, none) :=
  ⟨by decide, GSM.GetCodePoints_extension {} 0x20AC (by decide)⟩

/-- C10: for every character of the default alphabet, and so for the digits
U+0030 to U+0039, the capital letters U+0041 to U+005A and the space U+0020,
`GSM.GetCodePoints` on the code-point table of the spec returns 1 and a nil
error. -/
theorem GSM.GetCodePoints_base (s : GSM) (c : Int)
    (hc : c ∈ gsmBaseAlphabet ∨ ((0x30 : Int) ≤ c ∧ c ≤ (0x39 : Int)) ∨
      ((0x41 : Int) ≤ c ∧ c ≤ (0x5A : Int)) ∨ c = (0x20 : Int)) :
    GSM.GetCodePoints gsmCodePoints s c = (1, none) := by
  have hmem : c ∈ gsmBaseAlphabet := by
    rcases hc with h | h
    · exact h
    · exact mem_gsmBaseAlphabet_of_digit_upper_space c h
  exact GSM.GetCodePoints_of_lookup_some gsmCodePoints s c 1 (gsmCodePoints_lookup_base c hmem)

/-- Witness of C10: the capital letter Z, U+005A. -/
theorem GSM.GetCodePoints_base_witness :
    ((0x5A : Int) ∈ gsmBaseAlphabet ∨ ((0x30 : Int) ≤ 0x5A ∧ (0x5A : Int) ≤ (0x39 : Int)) ∨
      ((0x41 : Int) ≤ 0x5A ∧ (0x5A : Int) ≤ (0x5A : Int)) ∨ (0x5A : Int) = (0x20 : Int)) ∧
    GSM.GetCodePoints gsmCodePoints {} 0x5A = (1, none) :=
  ⟨by decide, GSM.GetCodePoints_base {} 0x5A (by decide)⟩

/-! ## The loop over a concatenation -/

/-- The loop of `GSM.CheckEncodability` over two slices one after the other
is the conjunction of the loops over each. -/
theorem GSM.CheckEncodability.loop_append (tbl : RuneMap) (g : GSM) (a b : List rune) :
    GSM.CheckEncodability.loop tbl g (a ++ b) =
      (GSM.CheckEncodability.loop tbl g a && GSM.CheckEncodability.loop tbl g b) := by
  induction a with
  | nil => simp [GSM.CheckEncodability.loop]
  | cons c rest ih =>
    simp only [List.cons_append, GSM.CheckEncodability.loop]
    by_cases h : (GSM.GetCodePoints tbl g c).2 = none
    · simp [h, ih]
    · simp [h]

/-- The loop answers `false` as soon as it meets a rune `GSM.GetCodePoints`
fails on. -/
theorem GSM.CheckEncodability.loop_cons_of_fail (tbl : RuneMap) (g : GSM) (c : rune)
    (t : List rune) (h : (GSM.GetCodePoints tbl g c).2 ≠ none) :
    GSM.CheckEncodability.loop tbl g (c :: t) = false := by
  simp [GSM.CheckEncodability.loop, h]

/-- The loop answers `false` on a slice that holds a rune `GSM.GetCodePoints`
fails on, whatever comes before and after the rune. -/
theorem GSM.CheckEncodability.loop_of_fail (tbl : RuneMap) (g : GSM) (c : rune)
    (p t : List rune) (h : (GSM.GetCodePoints tbl g c).2 ≠ none) :
    GSM.CheckEncodability.loop tbl g (p ++ c :: t) = false := by
  rw [GSM.CheckEncodability.loop_append, GSM.CheckEncodability.loop_cons_of_fail tbl g c t h]
  simp

/-- The loop answers `true` on every contiguous part of a slice it answers
`true` on. -/
theorem GSM.CheckEncodability.loop_of_infix (tbl : RuneMap) (g : GSM) (m l : List rune)
    (hm : m <:+: l) (hl : GSM.CheckEncodability.loop tbl g l = true) :
    GSM.CheckEncodability.loop tbl g m = true := by
  rw [GSM.CheckEncodability.loop_eq_true_iff] at hl ⊢
  intro c hc
  exact hl c (hm.subset hc)

/-! ## Claims about strings, constructors and repeated calls -/

/-- C11: `GSM.CheckEncodability` of the empty string returns true, whatever
the code-point table holds. -/
theorem GSM.CheckEncodability_empty (tbl : RuneMap) (g : GSM) :
    GSM.CheckEncodability tbl g [] = true := by
  rfl

/-- C12: the encoder `NewGSM` returns has the name "GSM" and 7 bits to the
code point; the encoder `NewUTF16` returns has the name "UTF-16" and 16 bits
to the code point. -/
theorem NewGSM_NewUTF16_name_and_bits :
    NewGSM.GetEncoderName = "GSM" ∧ NewGSM.GetCodePointBits = 7 ∧
    NewUTF16.GetEncoderName = "UTF-16" ∧ NewUTF16.GetCodePointBits = 16 := by
  refine ⟨?_, ?_, ?_, ?_⟩ <;> rfl

/-- C13: a string whose runes are a prefix `p`, a rune `c` that
`GSM.GetCodePoints` fails on, and a rest `t`, makes `GSM.CheckEncodability`
return false, and so the same for any two rests: the runes after the first
unencodable one have no part in the result. -/
theorem GSM.CheckEncodability_false_of_unencodable_rune (tbl : RuneMap) (g : GSM) (c : rune)
    (hfail : (GSM.GetCodePoints tbl g c).2 ≠ none) (p t : List rune) (str : GoString)
    (hstr : stringToRunes str = p ++ c :: t) :
    GSM.CheckEncodability tbl g str = false ∧
    ∀ (t2 : List rune) (str2 : GoString), stringToRunes str2 = p ++ c :: t2 →
      GSM.CheckEncodability tbl g str2 = GSM.CheckEncodability tbl g str := by
  have key : ∀ (u : List rune) (x : GoString), stringToRunes x = p ++ c :: u →
      GSM.CheckEncodability tbl g x = false := by
    intro u x hx
    unfold GSM.CheckEncodability
    simp only [hx]
    exact GSM.CheckEncodability.loop_of_fail tbl g c p u hfail
  refine ⟨key t str hstr, ?_⟩
  intro t2 str2 h2
  rw [key t2 str2 h2, key t str hstr]

/-- Witness of C13: the bytes of "HELLO ", U+597D and "!" decode to the six
runes of "HELLO ", the rune U+597D, which the code-point table of the spec
has no key for, and the rune of "!"; the string is not encodable. -/
theorem GSM.CheckEncodability_false_of_unencodable_rune_witness :
    (GSM.GetCodePoints gsmCodePoints {} 0x597D).2 ≠ none ∧
    stringToRunes [0x48, 0x45, 0x4C, 0x4C, 0x4F, 0x20, 0xE5, 0xA5, 0xBD, 0x21] =
      [0x48, 0x45, 0x4C, 0x4C, 0x4F, 0x20] ++ 0x597D :: [0x21] ∧
    GSM.CheckEncodability gsmCodePoints {}
      [0x48, 0x45, 0x4C, 0x4C, 0x4F, 0x20, 0xE5, 0xA5, 0xBD, 0x21] = false :=
  ⟨by decide, by decide,
    (GSM.CheckEncodability_false_of_unencodable_rune gsmCodePoints {} 0x597D (by decide)
      [0x48, 0x45, 0x4C, 0x4C, 0x4F, 0x20] [0x21]
      [0x48, 0x45, 0x4C, 0x4C, 0x4F, 0x20, 0xE5, 0xA5, 0xBD, 0x21] (by decide)).1⟩

/-! ## What a call leaves behind -/

theorem ReadOnly.of_pure {α : Type} (a : α) : ReadOnly (pure a : StateM PkgState α) := by
  intro σ
  rfl

theorem ReadOnly.of_bind {α β : Type} (m : StateM PkgState α) (f : α → StateM PkgState β)
    (hm : ReadOnly m) (hf : ∀ a, ReadOnly (f a)) : ReadOnly (m >>= f) := by
  intro σ
  have h1 := hm σ
  have h2 := hf (m.run σ).1 (m.run σ).2
  rw [h1] at h2
  simp only [StateT.run_bind]
  show (StateT.run (f (m.run σ).1) (m.run σ).2).2 = σ
  rw [h1]
  exact h2

theorem ReadOnly.of_ite {α : Type} (c : Prop) [Decidable c] (a b : StateM PkgState α)
    (ha : ReadOnly a) (hb : ReadOnly b) : ReadOnly (if c then a else b) := by
  split
  · exact ha
  · exact hb

/-- A step that writes is not read-only: inserting a key into the map
`gsmCodePoints` changes the state. -/
theorem ReadOnly.not_of_insert :
    ¬ ReadOnly (modify fun σ => { σ with gsmCodePoints := (0, 0) :: σ.gsmCodePoints } :
      StateM PkgState PUnit) := by
  intro h
  have := h ⟨ErrNotEncodable, []⟩
  exact absurd this (by decide)

theorem loadErrNotEncodable_readOnly : ReadOnly loadErrNotEncodable := by
  intro σ
  rfl

theorem indexGsmCodePoints_readOnly (k : rune) : ReadOnly (indexGsmCodePoints k) := by
  intro σ
  rfl

theorem GSM.GetCodePoints.exec_readOnly (s : GSM) (c : rune) :
    ReadOnly (GSM.GetCodePoints.exec s c) := by
  unfold GSM.GetCodePoints.exec
  apply ReadOnly.of_bind _ _ (indexGsmCodePoints_readOnly c)
  rintro ⟨codePoints, isGSM⟩
  apply ReadOnly.of_ite
  · apply ReadOnly.of_bind _ _ loadErrNotEncodable_readOnly
    intro e
    exact ReadOnly.of_pure _
  · apply ReadOnly.of_bind _ _ (ReadOnly.of_pure _)
    intro _
    exact ReadOnly.of_pure _

theorem GSM.CheckEncodability.loopExec_readOnly (s : GSM) (l : List rune) :
    ReadOnly (GSM.CheckEncodability.loopExec s l) := by
  induction l with
  | nil => exact ReadOnly.of_pure _
  | cons c rest ih =>
    unfold GSM.CheckEncodability.loopExec
    apply ReadOnly.of_bind _ _ (GSM.GetCodePoints.exec_readOnly s c)
    rintro ⟨n, err⟩
    apply ReadOnly.of_ite
    · exact ReadOnly.of_pure _
    · apply ReadOnly.of_bind _ _ (ReadOnly.of_pure _)
      intro _
      exact ih

theorem UTF16.GetCodePoints.exec_writes_nothing (s : UTF16) (c : rune) :
    ReadOnly (UTF16.GetCodePoints.exec s c) := by
  unfold UTF16.GetCodePoints.exec
  split
  apply ReadOnly.of_ite
  · exact ReadOnly.of_pure _
  · apply ReadOnly.of_bind _ _ (ReadOnly.of_pure _)
    intro _
    exact ReadOnly.of_pure _

theorem Encoder.GetCodePoints.exec_keeps_state (e : Encoder) (c : rune) :
    ReadOnly (Encoder.GetCodePoints.exec e c) := by
  cases e with
  | gsm s => exact GSM.GetCodePoints.exec_readOnly s c
  | utf16 s => exact UTF16.GetCodePoints.exec_writes_nothing s c

theorem Encoder.invoke_readOnly (e : Encoder) (call : Call) : ReadOnly (e.invoke call) := by
  cases call with
  | GetEncoderName =>
    cases e <;>
      exact ReadOnly.of_bind _ _ (ReadOnly.of_pure _) (fun _ => ReadOnly.of_pure _)
  | GetCodePointBits =>
    cases e <;>
      exact ReadOnly.of_bind _ _ (ReadOnly.of_pure _) (fun _ => ReadOnly.of_pure _)
  | GetCodePoints c =>
    exact ReadOnly.of_bind _ _ (Encoder.GetCodePoints.exec_keeps_state e c)
      (fun _ => ReadOnly.of_pure _)
  | CheckEncodability str =>
    cases e with
    | gsm s =>
      exact ReadOnly.of_bind _ _ (GSM.CheckEncodability.loopExec_readOnly s (stringToRunes str))
        (fun _ => ReadOnly.of_pure _)
    | utf16 s =>
      exact ReadOnly.of_bind _ _ (ReadOnly.of_pure _) (fun _ => ReadOnly.of_pure _)

theorem runCalls_readOnly (calls : List (Encoder × Call)) : ReadOnly (runCalls calls) := by
  induction calls with
  | nil => exact ReadOnly.of_pure _
  | cons p rest ih =>
    obtain ⟨e, call⟩ := p
    unfold runCalls
    apply ReadOnly.of_bind _ _ (Encoder.invoke_readOnly e call)
    intro _
    apply ReadOnly.of_bind _ _ ih
    intro _
    exact ReadOnly.of_pure _

/-- In a state where `ErrNotEncodable` holds the value it is declared with,
the step of `(*GSM).GetCodePoints` returns what the function of the map
returns. -/
theorem GSM.GetCodePoints.exec_result_of_map (s : GSM) (c : rune) (σ : PkgState)
    (h : σ.ErrNotEncodable = ErrNotEncodable) :
    ((GSM.GetCodePoints.exec s c).run σ).1 = GSM.GetCodePoints σ.gsmCodePoints s c := by
  rw [GSM.GetCodePoints_eq]
  unfold GSM.GetCodePoints.exec indexGsmCodePoints loadErrNotEncodable RuneMap.index
  cases hl : σ.gsmCodePoints.lookup c <;>
    simp [StateT.run, bind, StateT.bind, pure, StateT.pure, get, getThe, MonadStateOf.get,
      StateT.get, hl, h]

/-- The step of `(*UTF16).GetCodePoints` returns, in every state, what the
function of the rune returns. -/
theorem UTF16.GetCodePoints.exec_result_of_rune (s : UTF16) (c : rune) (σ : PkgState) :
    ((UTF16.GetCodePoints.exec s c).run σ).1 = UTF16.GetCodePoints s c := by
  unfold UTF16.GetCodePoints.exec UTF16.GetCodePoints
  split
  split <;> rfl

/-- C14: `GetCodePoints` is deterministic on both encoders: in every state of
the package variables, a second call with the same rune on the same encoder
returns the count and the error of the first, whatever calls of the methods
of the interface, on whatever encoders, run between the two; the calls leave
the package variables as they found them. -/
theorem Encoder.GetCodePoints_deterministic (σ : PkgState) (e : Encoder) (c : rune)
    (calls : List (Encoder × Call)) :
    (((Encoder.GetCodePoints.exec e c).run
        ((runCalls calls).run ((Encoder.GetCodePoints.exec e c).run σ).2).2).1).1 =
      (((Encoder.GetCodePoints.exec e c).run σ).1).1 ∧
    (((Encoder.GetCodePoints.exec e c).run
        ((runCalls calls).run ((Encoder.GetCodePoints.exec e c).run σ).2).2).1).2 =
      (((Encoder.GetCodePoints.exec e c).run σ).1).2 ∧
    ((Encoder.GetCodePoints.exec e c).run
        ((runCalls calls).run ((Encoder.GetCodePoints.exec e c).run σ).2).2).2 = σ := by
  have h1 := Encoder.GetCodePoints.exec_keeps_state e c σ
  have h2 := runCalls_readOnly calls σ
  rw [h1, h2]
  exact ⟨rfl, rfl, h1⟩

/-- The bytes 0xC3 and 0xA9 are each an invalid string of one byte, decoded to
U+FFFD, and together the string of the one rune U+00E9: joining the bytes of
two strings does not always join their runes. -/
theorem stringToRunes_split_sequence :
    stringToRunes [0xC3] = [0xFFFD] ∧ stringToRunes [0xA9] = [0xFFFD] ∧
    stringToRunes ([0xC3] ++ [0xA9]) = [0xE9] ∧
    GSM.CheckEncodability gsmCodePoints {} [0xC3] = false ∧
    GSM.CheckEncodability gsmCodePoints {} ([0xC3] ++ [0xA9]) = true := by
  decide

/-- C15: taken as rune sequences, `GSM.CheckEncodability` distributes over
concatenation: a string whose runes are the runes of `s` followed by the
runes of `t` is encodable exactly when `s` and `t` both are, which is so of
the bytes of `s` followed by the bytes of `t` when `s` is valid UTF-8; and a
string whose runes are a contiguous part of the runes of an encodable string
is encodable. -/
theorem GSM.CheckEncodability_append (tbl : RuneMap) (g : GSM) :
    (∀ str s t : GoString, stringToRunes str = stringToRunes s ++ stringToRunes t →
      GSM.CheckEncodability tbl g str =
        (GSM.CheckEncodability tbl g s && GSM.CheckEncodability tbl g t)) ∧
    (∀ s t : GoString, isValidUTF8 s = true →
      GSM.CheckEncodability tbl g (s ++ t) =
        (GSM.CheckEncodability tbl g s && GSM.CheckEncodability tbl g t)) ∧
    (∀ str sub : GoString, stringToRunes sub <:+: stringToRunes str →
      GSM.CheckEncodability tbl g str = true → GSM.CheckEncodability tbl g sub = true) := by
  have hcat : ∀ str s t : GoString, stringToRunes str = stringToRunes s ++ stringToRunes t →
      GSM.CheckEncodability tbl g str =
        (GSM.CheckEncodability tbl g s && GSM.CheckEncodability tbl g t) := by
    intro str s t h
    unfold GSM.CheckEncodability
    simp only [h]
    exact GSM.CheckEncodability.loop_append tbl g (stringToRunes s) (stringToRunes t)
  refine ⟨hcat, ?_, ?_⟩
  · intro s t hs
    exact hcat (s ++ t) s t (stringToRunes_append s t hs)
  · intro str sub h hstr
    unfold GSM.CheckEncodability at hstr ⊢
    exact GSM.CheckEncodability.loop_of_infix tbl g (stringToRunes sub) (stringToRunes str) h hstr

/-- Witness of C15: the bytes of "HELLO" are the bytes of "HEL" and of "LO"
one after the other, and so are their runes; the bytes of U+00E9 and of
U+597D, each valid UTF-8, make a string that is not encodable, as the second
is not; with the code-point table of the spec "HELLO" is encodable, and so
is "ELL", a part of it. -/
theorem GSM.CheckEncodability_append_witness :
    (stringToRunes [0x48, 0x45, 0x4C, 0x4C, 0x4F] =
        stringToRunes [0x48, 0x45, 0x4C] ++ stringToRunes [0x4C, 0x4F] ∧
      GSM.CheckEncodability gsmCodePoints {} [0x48, 0x45, 0x4C, 0x4C, 0x4F] =
        (GSM.CheckEncodability gsmCodePoints {} [0x48, 0x45, 0x4C] &&
          GSM.CheckEncodability gsmCodePoints {} [0x4C, 0x4F])) ∧
    (isValidUTF8 [0xC3, 0xA9] = true ∧
      GSM.CheckEncodability gsmCodePoints {} ([0xC3, 0xA9] ++ [0xE5, 0xA5, 0xBD]) =
        (GSM.CheckEncodability gsmCodePoints {} [0xC3, 0xA9] &&
          GSM.CheckEncodability gsmCodePoints {} [0xE5, 0xA5, 0xBD])) ∧
    (stringToRunes [0x45, 0x4C, 0x4C] <:+: stringToRunes [0x48, 0x45, 0x4C, 0x4C, 0x4F] ∧
      GSM.CheckEncodability gsmCodePoints {} [0x48, 0x45, 0x4C, 0x4C, 0x4F] = true ∧
      GSM.CheckEncodability gsmCodePoints {} [0x45, 0x4C, 0x4C] = true) :=
  ⟨⟨by decide,
      (GSM.CheckEncodability_append gsmCodePoints {}).1 [0x48, 0x45, 0x4C, 0x4C, 0x4F]
        [0x48, 0x45, 0x4C] [0x4C, 0x4F] (by decide)⟩,
    ⟨by decide,
      (GSM.CheckEncodability_append gsmCodePoints {}).2.1 [0xC3, 0xA9] [0xE5, 0xA5, 0xBD]
        (by decide)⟩,
    ⟨⟨[0x48], [0x4F], by decide⟩, by decide,
      (GSM.CheckEncodability_append gsmCodePoints {}).2.2 [0x48, 0x45, 0x4C, 0x4C, 0x4F]
        [0x45, 0x4C, 0x4C] ⟨[0x48], [0x4F], by decide⟩ (by decide)⟩⟩

/-- C16: for every rune, `UTF16.GetCodePoints` returns the count 2 if and only
if the rune is from U+10000 to U+10FFFF; for a surrogate value, a negative
value or a value above U+10FFFF, `utf16.EncodeRune` gives U+FFFD and
`UTF16.GetCodePoints` returns 1 and a nil error. -/
theorem UTF16.GetCodePoints_two_iff (s : UTF16) (c : Int) :
    ((UTF16.GetCodePoints s c).1 = 2 ↔ (0x10000 : Int) ≤ c ∧ c ≤ (0x10FFFF : Int)) ∧
    ((((0xD800 : Int) ≤ c ∧ c ≤ (0xDFFF : Int)) ∨ c < (0 : Int) ∨ (0x10FFFF : Int) < c) →
      (utf16.EncodeRune c).1 = 0xFFFD ∧ UTF16.GetCodePoints s c = (1, none)) := by
  constructor
  · by_cases h : c < (0x10000 : Int) ∨ (0x10FFFF : Int) < c
    · rw [UTF16.GetCodePoints_of_not_pair s c h]
      constructor
      · intro h2
        exact absurd h2 (by decide)
      · intro h2
        omega
    · rw [UTF16.GetCodePoints_of_pair s c (by omega) (by omega)]
      constructor
      · intro _
        omega
      · intro _
        rfl
  · intro h
    have hn : c < (0x10000 : Int) ∨ (0x10FFFF : Int) < c := by omega
    exact ⟨by rw [utf16.EncodeRune_of_not_pair c hn], UTF16.GetCodePoints_of_not_pair s c hn⟩

/-- Witness of C16: the high surrogate value 0xD800 is encoded as U+FFFD and
costs 1, with a nil error. -/
theorem UTF16.GetCodePoints_two_iff_witness :
    ((((0xD800 : Int) ≤ 0xD800 ∧ (0xD800 : Int) ≤ (0xDFFF : Int)) ∨ (0xD800 : Int) < (0 : Int) ∨
        (0x10FFFF : Int) < 0xD800) ∧
      (utf16.EncodeRune 0xD800).1 = 0xFFFD ∧ UTF16.GetCodePoints {} 0xD800 = (1, none)) ∧
    ((UTF16.GetCodePoints {} 0x10000).1 = 2 ∧ (UTF16.GetCodePoints {} 0x10FFFF).1 = 2 ∧
      (UTF16.GetCodePoints {} (-1)).1 = 1 ∧ (UTF16.GetCodePoints {} 0x110000).1 = 1) :=
  ⟨⟨by decide, (UTF16.GetCodePoints_two_iff {} 0xD800).2 (by decide)⟩,
    ⟨((UTF16.GetCodePoints_two_iff {} 0x10000).1).mpr (by decide), by decide, by decide,
      by decide⟩⟩

end Gosms
